import Mathlib

/-!
Shallow embedding of the `watermark` Go package (`watermark.go`) and proofs
about its pixel-blending, placement, rendering and tiling logic.

Modelling conventions:
* A Go `color.Color` is observed through its `RGBA()` method, which yields
  four alpha-premultiplied channels on the 0–65535 scale; we model that
  observation as an `RGBA16` record of naturals.
* A `color.RGBA` (the 8-bit concrete color stored in an `image.RGBA` buffer)
  is an `RGBA8` record; its `RGBA()` observation multiplies each channel by
  0x101 = 257, and `color.RGBAModel` conversion keeps `uint8(c >> 8)` of each
  channel.
* Go `float64` arithmetic on the small values used by `blendColors`
  (channels ≤ 255, alpha factors built from `/ 65535` and the opacity) is
  modelled exactly with `ℚ`; the final `uint8(...)` conversion is a
  truncation, modelled by `Int.floor` (the two agree on the non-negative
  values produced by in-range inputs) followed by `% 256`.
* Go `int` arithmetic is modelled with `ℤ`; Go integer division truncates
  toward zero, which is `Int.tdiv`.
-/

namespace Watermark

/-- The observable of a Go `color.Color`: the four premultiplied channels
returned by `RGBA()`, each intended to lie in 0–65535. -/
structure RGBA16 where
  r : ℕ
  g : ℕ
  b : ℕ
  a : ℕ
deriving DecidableEq

/-- A concrete `color.RGBA` value as stored in an `image.RGBA` buffer:
four 8-bit channels. -/
structure RGBA8 where
  r : ℕ
  g : ℕ
  b : ℕ
  a : ℕ
deriving DecidableEq

/-- `color.RGBA.RGBA()`: each 8-bit channel c is observed as `c * 0x101`. -/
def RGBA8.toRGBA16 (c : RGBA8) : RGBA16 :=
  ⟨257 * c.r, 257 * c.g, 257 * c.b, 257 * c.a⟩

/-- `color.RGBAModel` conversion: from the `RGBA()` observation, keep
`uint8(c >> 8)` of each channel (the `% 256` is the `uint8` wrap, an
identity for contract-abiding colors). -/
def RGBA16.toRGBA8 (c : RGBA16) : RGBA8 :=
  ⟨c.r / 256 % 256, c.g / 256 % 256, c.b / 256 % 256, c.a / 256 % 256⟩

/-- All four channels of an 8-bit color are in range. -/
def RGBA8.chValid (c : RGBA8) : Prop :=
  c.r < 256 ∧ c.g < 256 ∧ c.b < 256 ∧ c.a < 256

instance (c : RGBA8) : Decidable c.chValid := by
  unfold RGBA8.chValid
  infer_instance

/-- Go's `uint8(v)` conversion of a non-negative float: truncate, then wrap
into 8 bits.  (For the in-range values produced by contract-abiding colors
the `Int.toNat` and `% 256` are identities.) -/
def trunc8 (q : ℚ) : ℕ := (⌊q⌋).toNat % 256

/-- `float64(oa) / 65535.0 * opacity` from `blendColors`. -/
def effAlpha (oa : ℕ) (opacity : ℚ) : ℚ := (oa : ℚ) / 65535 * opacity

/-- One channel of `blendColors`:
`uint8(float64(b>>8)*(1-overlayAlpha) + float64(o>>8)*overlayAlpha)`.
Note that both channels are shifted down to the 8-bit scale *before* the
floating-point blend. -/
def blendChannel (b o : ℕ) (ea : ℚ) : ℕ :=
  trunc8 ((↑(b / 256) : ℚ) * (1 - ea) + (↑(o / 256) : ℚ) * ea)

/-- `blendColors(base, overlay, opacity)` from `watermark.go`, on the
`RGBA()` observations of the two colors.  If the overlay alpha is zero the
base color is returned as-is; otherwise a fresh `color.RGBA` is built, whose
observation is given by `RGBA8.toRGBA16`. -/
def blendColors (base overlay : RGBA16) (opacity : ℚ) : RGBA16 :=
  if overlay.a = 0 then base
  else
    RGBA8.toRGBA16
      ⟨blendChannel base.r overlay.r (effAlpha overlay.a opacity),
       blendChannel base.g overlay.g (effAlpha overlay.a opacity),
       blendChannel base.b overlay.b (effAlpha overlay.a opacity),
       base.a / 256 % 256⟩

/-- The `Position` enumeration of the package. -/
inductive Position where
  | Center
  | TopLeft
  | TopRight
  | BottomLeft
  | BottomRight
deriving DecidableEq

/-- The `Options` struct: position, opacity, horizontal and vertical
padding. -/
structure Options where
  position : Position
  opacity : ℚ
  paddingX : ℤ
  paddingY : ℤ

/-- The two sequential opacity fix-ups at the top of `Apply`'s blending
phase: `if Opacity <= 0 { Opacity = 0.5 }` then
`if Opacity > 1 { Opacity = 1 }`. -/
def normOpacity (opacity : ℚ) : ℚ :=
  if 1 < (if opacity ≤ 0 then 1/2 else opacity) then 1
  else (if opacity ≤ 0 then 1/2 else opacity)

/-- The position `switch` of `Apply`: top-left offset of the watermark,
computed from the base and watermark dimensions and the paddings.  Go's
integer division truncates toward zero, hence `Int.tdiv`. -/
def computeOffset (srcW srcH wmW wmH : ℕ) (position : Position)
    (paddingX paddingY : ℤ) : ℤ × ℤ :=
  match position with
  | Position.Center =>
      (((srcW : ℤ) - (wmW : ℤ)).tdiv 2, ((srcH : ℤ) - (wmH : ℤ)).tdiv 2)
  | Position.TopLeft => (paddingX, paddingY)
  | Position.TopRight => ((srcW : ℤ) - (wmW : ℤ) - paddingX, paddingY)
  | Position.BottomLeft => (paddingX, (srcH : ℤ) - (wmH : ℤ) - paddingY)
  | Position.BottomRight =>
      ((srcW : ℤ) - (wmW : ℤ) - paddingX, (srcH : ℤ) - (wmH : ℤ) - paddingY)

/-- One-channel round trip: `uint8((257*c) >> 8) = c` for `c < 256`. -/
theorem roundtrip_ch (r : ℕ) (hr : r < 256) : 257 * r / 256 % 256 = r := by
  have h1 : 257 * r = 256 * r + r := by ring
  rw [h1, Nat.mul_add_div (by norm_num), Nat.div_eq_of_lt hr, Nat.add_zero,
    Nat.mod_eq_of_lt hr]

/-- Round-trip: converting a stored 8-bit color to its observation and back
is the identity on in-range channels. -/
theorem toRGBA8_toRGBA16 (c : RGBA8) (h : c.chValid) :
    (RGBA8.toRGBA16 c).toRGBA8 = c := by
  obtain ⟨r, g, b, a⟩ := c
  simp only [RGBA8.chValid] at h
  simp only [RGBA8.toRGBA16, RGBA16.toRGBA8, RGBA8.mk.injEq]
  exact ⟨roundtrip_ch r h.1, roundtrip_ch g h.2.1, roundtrip_ch b h.2.2.1,
    roundtrip_ch a h.2.2.2⟩

/-- The `RGBAModel` conversion always produces in-range channels. -/
theorem toRGBA8_chValid (c : RGBA16) : c.toRGBA8.chValid := by
  obtain ⟨r, g, b, a⟩ := c
  refine ⟨?_, ?_, ?_, ?_⟩ <;> exact Nat.mod_lt _ (by norm_num)

/-- C4: for every base pixel, every opacity value, and every overlay pixel
whose alpha channel is exactly zero, `blendColors` returns the base pixel
unchanged, with exact equality — no blend computation or rounding is
applied. -/
theorem blendColors_transparent (base overlay : RGBA16) (opacity : ℚ)
    (h : overlay.a = 0) : blendColors base overlay opacity = base := by
  simp [blendColors, h]

/-- Witness for C4 at a concrete input. -/
theorem blendColors_transparent_witness :
    (⟨1, 2, 3, 0⟩ : RGBA16).a = 0 ∧
      blendColors ⟨100, 200, 300, 400⟩ ⟨1, 2, 3, 0⟩ (3/4) = ⟨100, 200, 300, 400⟩ :=
  ⟨rfl, blendColors_transparent _ _ _ rfl⟩

/-- C5 counterexample: for a 16-bit base color with alpha 300 and a fully
transparent overlay, `blendColors` returns alpha 300 as-is, which is neither
the 8-bit truncation of 300 (that is 1) nor its re-observation 257; the
claimed unconditional truncation of the result alpha is false. -/
theorem blendColors_alpha_cex :
    (blendColors ⟨0, 0, 0, 300⟩ ⟨0, 0, 0, 0⟩ 1).a = 300 ∧
      (300 : ℕ) ≠ 257 * (300 / 256 % 256) ∧ (300 : ℕ) ≠ 300 / 256 % 256 :=
  ⟨rfl, by norm_num, by norm_num⟩

/-- C5 (amended): the result alpha never depends on the overlay alpha other
than through the zero test: when the overlay alpha is zero the base pixel's
alpha is returned unchanged (not truncated), and otherwise the result alpha
is the base alpha truncated to 8 bits (re-observed on the 16-bit scale). -/
theorem blendColors_alpha (base overlay : RGBA16) (opacity : ℚ) :
    (overlay.a = 0 → (blendColors base overlay opacity).a = base.a) ∧
      (overlay.a ≠ 0 →
        (blendColors base overlay opacity).a = 257 * (base.a / 256 % 256)) := by
  constructor <;> intro h <;> simp [blendColors, h, RGBA8.toRGBA16]

/-- Witness for C5's amended statement at concrete inputs. -/
theorem blendColors_alpha_witness :
    (blendColors ⟨0, 0, 0, 300⟩ ⟨0, 0, 0, 0⟩ 1).a = 300 ∧
      (blendColors ⟨0, 0, 0, 300⟩ ⟨5, 5, 5, 65535⟩ 1).a = 257 * (300 / 256 % 256) :=
  ⟨(blendColors_alpha ⟨0, 0, 0, 300⟩ ⟨0, 0, 0, 0⟩ 1).1 rfl,
    (blendColors_alpha ⟨0, 0, 0, 300⟩ ⟨5, 5, 5, 65535⟩ 1).2 (by norm_num)⟩

/-- C6: the placement calculator computes the five documented offsets, with
truncating (toward-zero) integer division; in particular the 200×100 base /
40×20 overlay / padding (10,10) examples hold, and a Center placement of a
larger overlay truncates toward zero (not toward minus infinity). -/
theorem computeOffset_spec :
    (∀ (sw sh ow oh : ℕ) (px py : ℤ),
        computeOffset sw sh ow oh Position.Center px py =
          (((sw : ℤ) - ow).tdiv 2, ((sh : ℤ) - oh).tdiv 2) ∧
        computeOffset sw sh ow oh Position.TopLeft px py = (px, py) ∧
        computeOffset sw sh ow oh Position.TopRight px py =
          ((sw : ℤ) - ow - px, py) ∧
        computeOffset sw sh ow oh Position.BottomLeft px py =
          (px, (sh : ℤ) - oh - py) ∧
        computeOffset sw sh ow oh Position.BottomRight px py =
          ((sw : ℤ) - ow - px, (sh : ℤ) - oh - py)) ∧
    computeOffset 200 100 40 20 Position.TopLeft 10 10 = (10, 10) ∧
    computeOffset 200 100 40 20 Position.TopRight 10 10 = (150, 10) ∧
    computeOffset 200 100 40 20 Position.BottomLeft 10 10 = (10, 70) ∧
    computeOffset 200 100 40 20 Position.BottomRight 10 10 = (150, 70) ∧
    computeOffset 200 100 40 20 Position.Center 10 10 = (80, 40) ∧
    computeOffset 1 1 4 4 Position.Center 0 0 = (-1, -1) :=
  ⟨fun _ _ _ _ _ _ => ⟨rfl, rfl, rfl, rfl, rfl⟩,
    by decide, by decide, by decide, by decide, by decide, by decide⟩

/-- Formalization of C1's wording for one channel: keep the channel values
on the 16-bit (0–65535) scale through the blend, so that precision is
preserved until a single final truncation to an 8-bit integer (the scale
reduction by 256 and the integer truncation happening in that final step). -/
def specBlendChannel16 (b o : ℕ) (ea : ℚ) : ℕ :=
  trunc8 (((b : ℚ) * (1 - ea) + (o : ℚ) * ea) / 256)

/-- C1 counterexample: for base red channel 255 (16-bit scale) and a fully
opaque white overlay at opacity 1/2, the code blends the channels after
shifting them to 8 bits (yielding 127), whereas blending on the 16-bit
scale with one final truncation yields 128 — precision is *not* preserved
until the final truncation step. -/
theorem blend_precision_cex :
    (blendColors ⟨255, 255, 255, 65535⟩ ⟨65535, 65535, 65535, 65535⟩ (1/2)).r =
      257 * 127 ∧
    blendChannel 255 65535 (effAlpha 65535 (1/2)) = 127 ∧
    specBlendChannel16 255 65535 (effAlpha 65535 (1/2)) = 128 ∧
    (127 : ℕ) ≠ 128 := by
  have h1 : blendChannel 255 65535 (effAlpha 65535 (1/2)) = 127 := by
    norm_num [blendChannel, effAlpha, trunc8]
    decide
  have h2 : specBlendChannel16 255 65535 (effAlpha 65535 (1/2)) = 128 := by
    norm_num [specBlendChannel16, effAlpha, trunc8]
    decide
  refine ⟨?_, h1, h2, by norm_num⟩
  show (RGBA8.toRGBA16 _).r = 257 * 127
  rw [RGBA8.toRGBA16]
  rw [show (⟨blendChannel 255 65535 (effAlpha 65535 (1/2)),
    blendChannel 255 255 (effAlpha 65535 (1/2)),
    blendChannel 255 255 (effAlpha 65535 (1/2)), 255⟩ : RGBA8).r =
    blendChannel 255 65535 (effAlpha 65535 (1/2)) from rfl, h1]

/-- C1 (amended): for a nonzero overlay alpha the result is built from
`effective_alpha = (overlay_alpha/65535)*opacity` as claimed, but each
red/green/blue channel is first truncated from the 16-bit to the 8-bit
scale (`c >> 8`) and only then blended in exact (floating-point) arithmetic
and truncated — precision of 16-bit channel values is lost before the
blend, not at the final truncation step. -/
theorem blendColors_formula (base overlay : RGBA16) (opacity : ℚ)
    (h : overlay.a ≠ 0) :
    blendColors base overlay opacity =
      RGBA8.toRGBA16
        ⟨trunc8 ((↑(base.r / 256) : ℚ) * (1 - effAlpha overlay.a opacity) +
            (↑(overlay.r / 256) : ℚ) * effAlpha overlay.a opacity),
         trunc8 ((↑(base.g / 256) : ℚ) * (1 - effAlpha overlay.a opacity) +
            (↑(overlay.g / 256) : ℚ) * effAlpha overlay.a opacity),
         trunc8 ((↑(base.b / 256) : ℚ) * (1 - effAlpha overlay.a opacity) +
            (↑(overlay.b / 256) : ℚ) * effAlpha overlay.a opacity),
         base.a / 256 % 256⟩ := by
  simp [blendColors, blendChannel, h]

/-- Witness for C1's amended statement at a concrete input. -/
theorem blendColors_formula_witness :
    (⟨65535, 65535, 65535, 65535⟩ : RGBA16).a ≠ 0 ∧
    blendColors ⟨255, 255, 255, 65535⟩ ⟨65535, 65535, 65535, 65535⟩ (1/2) =
      RGBA8.toRGBA16
        ⟨trunc8 ((↑(255 / 256 : ℕ) : ℚ) * (1 - effAlpha 65535 (1/2)) +
            (↑(65535 / 256 : ℕ) : ℚ) * effAlpha 65535 (1/2)),
         trunc8 ((↑(255 / 256 : ℕ) : ℚ) * (1 - effAlpha 65535 (1/2)) +
            (↑(65535 / 256 : ℕ) : ℚ) * effAlpha 65535 (1/2)),
         trunc8 ((↑(255 / 256 : ℕ) : ℚ) * (1 - effAlpha 65535 (1/2)) +
            (↑(65535 / 256 : ℕ) : ℚ) * effAlpha 65535 (1/2)),
         65535 / 256 % 256⟩ :=
  ⟨by norm_num,
    blendColors_formula ⟨255, 255, 255, 65535⟩ ⟨65535, 65535, 65535, 65535⟩
      (1/2) (by norm_num)⟩

/-- A read-only `image.Image`: a bounding rectangle (origin `minX`,`minY`,
dimensions `w`×`h`, so `Dx() = w`, `Dy() = h`) and the `At` accessor,
observed through `RGBA()`. -/
structure Img where
  minX : ℤ
  minY : ℤ
  w : ℕ
  h : ℕ
  At : ℤ → ℤ → RGBA16

/-- The mutable `*image.RGBA` output buffer: same bounding-rectangle data
plus the stored 8-bit pixels. -/
structure RGBAImg where
  minX : ℤ
  minY : ℤ
  w : ℕ
  h : ℕ
  pix : ℤ → ℤ → RGBA8

/-- Membership of a point in the buffer's bounding rectangle
(`Point{x,y}.In(p.Rect)` in Go). -/
def RGBAImg.inRect (d : RGBAImg) (x y : ℤ) : Prop :=
  d.minX ≤ x ∧ x < d.minX + d.w ∧ d.minY ≤ y ∧ y < d.minY + d.h

instance (d : RGBAImg) (x y : ℤ) : Decidable (d.inRect x y) := by
  unfold RGBAImg.inRect
  infer_instance

/-- `image.RGBA.At`: the stored pixel inside the rectangle, the zero color
outside. -/
def RGBAImg.At (d : RGBAImg) (x y : ℤ) : RGBA8 :=
  if d.inRect x y then d.pix x y else ⟨0, 0, 0, 0⟩

/-- `image.RGBA.Set`: store a pixel at `(x, y)`; a silent no-op outside the
bounding rectangle (the guard is folded into the stored function, which is
behaviorally identical). -/
def RGBAImg.Set (d : RGBAImg) (x y : ℤ) (c : RGBA8) : RGBAImg :=
  { d with
    pix := fun a b => if (a = x ∧ b = y) ∧ d.inRect x y then c else d.pix a b }

/-- `dst := image.NewRGBA(srcBounds)` followed by
`draw.Draw(dst, srcBounds, src, srcBounds.Min, draw.Src)`: a buffer over the
base bounds whose every rectangle pixel is the `color.RGBAModel` conversion
of the base pixel. -/
def dstInit (src : Img) : RGBAImg :=
  ⟨src.minX, src.minY, src.w, src.h, fun x y => (src.At x y).toRGBA8⟩

theorem At_Set_ne (d : RGBAImg) (x y X Y : ℤ) (c : RGBA8)
    (h : ¬(X = x ∧ Y = y)) : (d.Set x y c).At X Y = d.At X Y := by
  unfold RGBAImg.Set RGBAImg.At RGBAImg.inRect
  simp only [h, false_and, if_false]

theorem At_Set_self (d : RGBAImg) (x y : ℤ) (c : RGBA8)
    (h : d.inRect x y) : (d.Set x y c).At x y = c := by
  unfold RGBAImg.Set RGBAImg.At
  have h2 : RGBAImg.inRect
      { d with pix := fun a b => if (a = x ∧ b = y) ∧ d.inRect x y then c
          else d.pix a b } x y := h
  simp only [if_pos h2]
  simp [h]

theorem At_Set_write_back (d : RGBAImg) (x y X Y : ℤ) :
    (d.Set x y (d.At x y)).At X Y = d.At X Y := by
  by_cases hxy : X = x ∧ Y = y
  · obtain ⟨rfl, rfl⟩ := hxy
    by_cases hin : d.inRect X Y
    · rw [At_Set_self d X Y _ hin]
    · unfold RGBAImg.Set RGBAImg.At
      simp only [hin, and_false, if_false]
  · exact At_Set_ne d x y X Y _ hxy

theorem dstInit_At_chValid (src : Img) (X Y : ℤ) :
    ((dstInit src).At X Y).chValid := by
  unfold dstInit RGBAImg.At
  split
  · exact toRGBA8_chValid _
  · exact ⟨by norm_num, by norm_num, by norm_num, by norm_num⟩

/-- The row-major pixel enumeration of the nested
`for wy { for wx { ... } }` loops: index `i` visits `(wx, wy) = (i % W, i / W)`. -/
def pairs (W H : ℕ) : List (ℕ × ℕ) :=
  (List.range (H * W)).map fun i => (i % W, i / W)

theorem mem_pairs (W H : ℕ) (p : ℕ × ℕ) :
    p ∈ pairs W H ↔ p.1 < W ∧ p.2 < H := by
  obtain ⟨wx, wy⟩ := p
  unfold pairs
  rw [List.mem_map]
  constructor
  · rintro ⟨i, hi, hip⟩
    rw [List.mem_range] at hi
    have hW : 0 < W := by
      rcases Nat.eq_zero_or_pos W with h | h
      · subst h; omega
      · exact h
    have h1 : i % W = wx := congrArg Prod.fst hip
    have h2 : i / W = wy := congrArg Prod.snd hip
    constructor
    · simpa [h1] using Nat.mod_lt i hW
    · have := (Nat.div_lt_iff_lt_mul hW).mpr (by omega : i < H * W)
      omega
  · rintro ⟨h1, h2⟩
    have hW : 0 < W := lt_of_le_of_lt (Nat.zero_le _) h1
    refine ⟨wy * W + wx, ?_, ?_⟩
    · rw [List.mem_range]
      calc wy * W + wx < wy * W + W := by omega
        _ = (wy + 1) * W := by ring
        _ ≤ H * W := Nat.mul_le_mul_right _ h2
    · have hm : (wy * W + wx) % W = wx := by
        rw [Nat.mul_comm wy W, Nat.mul_add_mod, Nat.mod_eq_of_lt h1]
      have hd : (wy * W + wx) / W = wy := by
        rw [Nat.mul_comm wy W, Nat.mul_add_div hW, Nat.div_eq_of_lt h1,
          Nat.add_zero]
      rw [hm, hd]

theorem nodup_pairs (W H : ℕ) : (pairs W H).Nodup := by
  unfold pairs
  refine List.Nodup.map_on ?_ (List.nodup_range _)
  intro i _ j _ hij
  have h1 : i % W = j % W := congrArg Prod.fst hij
  have h2 : i / W = j / W := congrArg Prod.snd hij
  calc i = W * (i / W) + i % W := (Nat.div_add_mod i W).symm
    _ = W * (j / W) + j % W := by rw [h1, h2]
    _ = j := Nat.div_add_mod j W

/-- One iteration of the single-placement pixel loop: destination
`(offx+wx, offy+wy)`; skip when the destination is negative or at least the
width/height on either axis (the `continue` test of `Apply`), otherwise
read the current output pixel at the destination, combine it via `g`, and
store the result back at the destination. -/
def writeStep (sw sh : ℕ) (offx offy : ℤ) (g : ℕ × ℕ → RGBA8 → RGBA8)
    (d : RGBAImg) (p : ℕ × ℕ) : RGBAImg :=
  if 0 ≤ offx + (p.1 : ℤ) ∧ offx + (p.1 : ℤ) < (sw : ℤ) ∧
      0 ≤ offy + (p.2 : ℤ) ∧ offy + (p.2 : ℤ) < (sh : ℤ) then
    d.Set (offx + (p.1 : ℤ)) (offy + (p.2 : ℤ))
      (g p (d.At (offx + (p.1 : ℤ)) (offy + (p.2 : ℤ))))
  else d

theorem writeStep_minX (sw sh : ℕ) (ox oy : ℤ) (g) (d : RGBAImg) (p) :
    (writeStep sw sh ox oy g d p).minX = d.minX := by
  unfold writeStep RGBAImg.Set
  split <;> rfl

theorem writeStep_minY (sw sh : ℕ) (ox oy : ℤ) (g) (d : RGBAImg) (p) :
    (writeStep sw sh ox oy g d p).minY = d.minY := by
  unfold writeStep RGBAImg.Set
  split <;> rfl

theorem writeStep_w (sw sh : ℕ) (ox oy : ℤ) (g) (d : RGBAImg) (p) :
    (writeStep sw sh ox oy g d p).w = d.w := by
  unfold writeStep RGBAImg.Set
  split <;> rfl

theorem writeStep_h (sw sh : ℕ) (ox oy : ℤ) (g) (d : RGBAImg) (p) :
    (writeStep sw sh ox oy g d p).h = d.h := by
  unfold writeStep RGBAImg.Set
  split <;> rfl

theorem foldl_preserves_At {α : Type} (step : RGBAImg → α → RGBAImg)
    (l : List α) (d : RGBAImg) (X Y : ℤ)
    (h : ∀ d2 a, a ∈ l → (step d2 a).At X Y = d2.At X Y) :
    (l.foldl step d).At X Y = d.At X Y := by
  induction l generalizing d with
  | nil => rfl
  | cons p t ih =>
    rw [List.foldl_cons,
      ih _ (fun d2 a ha => h d2 a (List.mem_cons_of_mem _ ha)),
      h d p (List.mem_cons_self _ _)]

theorem foldl_At_id {α : Type} (step : RGBAImg → α → RGBAImg) (l : List α)
    (d0 : RGBAImg)
    (h : ∀ d2 a, a ∈ l → (∀ X Y, d2.At X Y = d0.At X Y) →
      ∀ X Y, (step d2 a).At X Y = d2.At X Y) :
    ∀ X Y, (l.foldl step d0).At X Y = d0.At X Y := by
  suffices H : ∀ l2 : List α, (∀ a ∈ l2, a ∈ l) → ∀ d2 : RGBAImg,
      (∀ X Y, d2.At X Y = d0.At X Y) →
      ∀ X Y, (l2.foldl step d2).At X Y = d0.At X Y by
    exact H l (fun _ ha => ha) d0 (fun _ _ => rfl)
  intro l2
  induction l2 with
  | nil => intro _ d2 hd2 X Y; exact hd2 X Y
  | cons p t ih =>
    intro hsub d2 hd2 X Y
    rw [List.foldl_cons]
    refine ih (fun a ha => hsub a (List.mem_cons_of_mem _ ha)) _ ?_ X Y
    intro X2 Y2
    rw [h d2 p (hsub p (List.mem_cons_self _ _)) hd2 X2 Y2, hd2 X2 Y2]

theorem foldl_writeStep_nguard (sw sh : ℕ) (ox oy : ℤ)
    (g : ℕ × ℕ → RGBA8 → RGBA8) (l : List (ℕ × ℕ)) (d : RGBAImg) (X Y : ℤ)
    (h : ¬(0 ≤ X ∧ X < (sw : ℤ) ∧ 0 ≤ Y ∧ Y < (sh : ℤ))) :
    (l.foldl (writeStep sw sh ox oy g) d).At X Y = d.At X Y := by
  refine foldl_preserves_At _ _ _ _ _ (fun d2 p _ => ?_)
  unfold writeStep
  split
  · rename_i hg
    refine At_Set_ne _ _ _ _ _ _ ?_
    rintro ⟨rfl, rfl⟩
    exact h hg
  · rfl

theorem foldl_writeStep_nomem (sw sh : ℕ) (ox oy : ℤ)
    (g : ℕ × ℕ → RGBA8 → RGBA8) (l : List (ℕ × ℕ)) (d : RGBAImg) (X Y : ℤ)
    (h : ∀ p ∈ l, ¬(ox + (p.1 : ℤ) = X ∧ oy + (p.2 : ℤ) = Y)) :
    (l.foldl (writeStep sw sh ox oy g) d).At X Y = d.At X Y := by
  refine foldl_preserves_At _ _ _ _ _ (fun d2 p hp => ?_)
  unfold writeStep
  split
  · refine At_Set_ne _ _ _ _ _ _ ?_
    rintro ⟨rfl, rfl⟩
    exact h p hp ⟨rfl, rfl⟩
  · rfl

theorem foldl_writeStep_hit (sw sh : ℕ) (ox oy : ℤ)
    (g : ℕ × ℕ → RGBA8 → RGBA8) (l : List (ℕ × ℕ)) (p : ℕ × ℕ) (X Y : ℤ)
    (hX : ox + (p.1 : ℤ) = X) (hY : oy + (p.2 : ℤ) = Y)
    (hg : 0 ≤ X ∧ X < (sw : ℤ) ∧ 0 ≤ Y ∧ Y < (sh : ℤ)) :
    ∀ d : RGBAImg, l.Nodup → p ∈ l → d.minX = 0 → d.minY = 0 → d.w = sw →
      d.h = sh →
      (l.foldl (writeStep sw sh ox oy g) d).At X Y = g p (d.At X Y) := by
  induction l with
  | nil => intro d _ hp; cases hp
  | cons q t ih =>
    intro d hnd hp h1 h2 h3 h4
    have hinj : ∀ r : ℕ × ℕ, ox + (r.1 : ℤ) = X → oy + (r.2 : ℤ) = Y →
        r = p := by
      intro r e1 e2
      have c1 : (r.1 : ℤ) = (p.1 : ℤ) := by omega
      have c2 : (r.2 : ℤ) = (p.2 : ℤ) := by omega
      have d1 : r.1 = p.1 := by exact_mod_cast c1
      have d2 : r.2 = p.2 := by exact_mod_cast c2
      exact Prod.ext d1 d2
    have hin : d.inRect X Y := by
      unfold RGBAImg.inRect
      rw [h1, h2, h3, h4]
      omega
    rw [List.foldl_cons]
    rcases List.mem_cons.mp hp with hq | hpt
    · have hstep : writeStep sw sh ox oy g d q =
          d.Set X Y (g p (d.At X Y)) := by
        rw [← hq]
        unfold writeStep
        rw [hX, hY, if_pos hg]
      rw [hstep]
      have hnomem : ∀ r ∈ t, ¬(ox + (r.1 : ℤ) = X ∧ oy + (r.2 : ℤ) = Y) := by
        intro r hr hcon
        have : r = p := hinj r hcon.1 hcon.2
        rw [this, hq] at hr
        exact (List.nodup_cons.mp hnd).1 hr
      rw [foldl_writeStep_nomem _ _ _ _ _ _ _ _ _ hnomem]
      exact At_Set_self _ _ _ _ hin
    · have hq : ¬(ox + (q.1 : ℤ) = X ∧ oy + (q.2 : ℤ) = Y) := by
        rintro ⟨e1, e2⟩
        have : q = p := hinj q e1 e2
        rw [this] at hnd
        exact (List.nodup_cons.mp hnd).1 hpt
      have hAt : (writeStep sw sh ox oy g d q).At X Y = d.At X Y := by
        unfold writeStep
        split
        · refine At_Set_ne _ _ _ _ _ _ ?_
          rintro ⟨rfl, rfl⟩
          exact hq ⟨rfl, rfl⟩
        · rfl
      rw [ih (writeStep sw sh ox oy g d q) (List.nodup_cons.mp hnd).2 hpt
        (by rw [writeStep_minX]; exact h1) (by rw [writeStep_minY]; exact h2)
        (by rw [writeStep_w]; exact h3) (by rw [writeStep_h]; exact h4), hAt]

/-- The loop body of `Apply`: blend the current output pixel at the
destination with the watermark pixel at `(Min.X+wx, Min.Y+wy)` under the
normalized opacity, and store the `color.RGBAModel` conversion of the
result. -/
def applyStep (src wm : Img) (opts : Options) : RGBAImg → ℕ × ℕ → RGBAImg :=
  writeStep src.w src.h
    (computeOffset src.w src.h wm.w wm.h opts.position opts.paddingX
      opts.paddingY).1
    (computeOffset src.w src.h wm.w wm.h opts.position opts.paddingX
      opts.paddingY).2
    (fun p c =>
      (blendColors c.toRGBA16
        (wm.At (wm.minX + (p.1 : ℤ)) (wm.minY + (p.2 : ℤ)))
        (normOpacity opts.opacity)).toRGBA8)

/-- `Apply(src, watermark, opts)` from `watermark.go`. -/
def Apply (src wm : Img) (opts : Options) : RGBAImg :=
  (pairs wm.w wm.h).foldl (applyStep src wm opts) (dstInit src)

/-- The loop `for v := 0; v < bound; v += stride`, with explicit fuel: the
list of visited loop-variable values, or `none` when the fuel runs out
before the guard fails (the Go loop would still be running). -/
def tileOriginsF : ℕ → ℤ → ℤ → ℤ → Option (List ℤ)
  | 0, _, _, _ => none
  | n + 1, y, bound, stride =>
    if y < bound then
      (tileOriginsF n (y + stride) bound stride).map (fun l => y :: l)
    else some []

/-- The tile origins along one axis, extracted with enough fuel for any
positive stride. -/
def tileOrigins (bound stride : ℤ) : List ℤ :=
  (tileOriginsF (bound.toNat + 1) 0 bound stride).getD []

/-- The iteration space of `Tile`'s four nested loops in source order:
tile rows, then tile columns (strides `wm.Dy()+spacing` / `wm.Dx()+spacing`),
then the watermark's own pixel grid. -/
def tileQuads (src wm : Img) (spacing : ℤ) : List (ℤ × ℤ × ℕ × ℕ) :=
  (tileOrigins (src.h : ℤ) ((wm.h : ℤ) + spacing)).flatMap fun ty =>
    (tileOrigins (src.w : ℤ) ((wm.w : ℤ) + spacing)).flatMap fun tx =>
      (pairs wm.w wm.h).map fun p => (tx, ty, p.1, p.2)

/-- The innermost loop body of `Tile`: destination `(x+wx, y+wy)`; skip when
at or past the base width/height (tile origins are never negative, and
`Tile` has no negativity test), otherwise blend the current output pixel
with the watermark pixel under the opacity exactly as supplied. -/
def tileStep (src wm : Img) (opacity : ℚ) (d : RGBAImg)
    (q : ℤ × ℤ × ℕ × ℕ) : RGBAImg :=
  if (src.w : ℤ) ≤ q.1 + (q.2.2.1 : ℤ) ∨ (src.h : ℤ) ≤ q.2.1 + (q.2.2.2 : ℤ)
  then d
  else
    d.Set (q.1 + (q.2.2.1 : ℤ)) (q.2.1 + (q.2.2.2 : ℤ))
      ((blendColors
        (d.At (q.1 + (q.2.2.1 : ℤ)) (q.2.1 + (q.2.2.2 : ℤ))).toRGBA16
        (wm.At (wm.minX + (q.2.2.1 : ℤ)) (wm.minY + (q.2.2.2 : ℤ)))
        opacity).toRGBA8)

/-- `Tile(src, watermark, opacity, spacing)` from `watermark.go`. -/
def Tile (src wm : Img) (opacity : ℚ) (spacing : ℤ) : RGBAImg :=
  (tileQuads src wm spacing).foldl (tileStep src wm opacity) (dstInit src)

/-- A constant-color image, used for concrete instances. -/
def constImg (minX minY : ℤ) (w h : ℕ) (c : RGBA16) : Img :=
  ⟨minX, minY, w, h, fun _ _ => c⟩

theorem mem_tileQuads (src wm : Img) (spacing : ℤ) (q : ℤ × ℤ × ℕ × ℕ)
    (hq : q ∈ tileQuads src wm spacing) :
    q.2.2.1 < wm.w ∧ q.2.2.2 < wm.h := by
  unfold tileQuads at hq
  rw [List.mem_flatMap] at hq
  obtain ⟨ty, _, hq⟩ := hq
  rw [List.mem_flatMap] at hq
  obtain ⟨tx, _, hq⟩ := hq
  rw [List.mem_map] at hq
  obtain ⟨p, hp, rfl⟩ := hq
  exact (mem_pairs _ _ p).mp hp

/-- Divergence of the loop `for v := 0; v < bound; v += stride`: no amount
of fuel reaches the loop exit. -/
def tileLoopDiverges (bound stride : ℤ) : Prop :=
  ∀ n : ℕ, tileOriginsF n 0 bound stride = none

/-- C3 counterexample: for a 1×1 base and a zero-height overlay with
spacing 0 (row stride `overlay_height + spacing = 0`), the tile-row loop of
`Tile` never advances and never terminates — `Tile` does not run to
completion on every input. -/
theorem Tile_termination_cex :
    tileLoopDiverges ((constImg 0 0 1 1 ⟨0, 0, 0, 65535⟩).h : ℤ)
      (((constImg 0 0 1 0 ⟨0, 0, 0, 0⟩).h : ℤ) + 0) := by
  show tileLoopDiverges 1 0
  intro n
  induction n with
  | zero => rfl
  | succ k ih =>
    have h01 : (0 : ℤ) < 1 := by norm_num
    simp only [tileOriginsF, if_pos h01, add_zero, ih, Option.map_none']

/-- C3 (amended): `Tile`'s two tile-origin loops advance by
`overlay_width + spacing` and `overlay_height + spacing` from 0 while the
origin is below the base dimension, and they run to completion whenever
both strides are at least 1 (in particular for any non-degenerate overlay
with non-negative spacing); with a stride ≤ 0 and a positive base dimension
the loop never advances (see the counterexample). -/
theorem Tile_loops_terminate (src wm : Img) (spacing : ℤ)
    (hx : 1 ≤ (wm.w : ℤ) + spacing) (hy : 1 ≤ (wm.h : ℤ) + spacing) :
    (tileOriginsF ((src.w : ℤ).toNat + 1) 0 (src.w : ℤ)
      ((wm.w : ℤ) + spacing)).isSome ∧
    (tileOriginsF ((src.h : ℤ).toNat + 1) 0 (src.h : ℤ)
      ((wm.h : ℤ) + spacing)).isSome := by
  have key : ∀ (stride : ℤ), 1 ≤ stride → ∀ (n : ℕ) (y bound : ℤ),
      (bound - y).toNat < n → (tileOriginsF n y bound stride).isSome := by
    intro stride hs n
    induction n with
    | zero => intro y bound h; omega
    | succ k ih =>
      intro y bound h
      simp only [tileOriginsF]
      split
      · rename_i hyb
        rw [Option.isSome_map']
        exact ih (y + stride) bound (by omega)
      · rfl
  exact ⟨key _ hx _ _ _ (by omega), key _ hy _ _ _ (by omega)⟩

/-- Witness for C3's amended statement: a 2×2 base with a 1×1 overlay at
spacing 0. -/
theorem Tile_loops_terminate_witness :
    (tileOriginsF ((2 : ℤ).toNat + 1) 0 (2 : ℤ) ((1 : ℤ) + 0)).isSome ∧
    (tileOriginsF ((2 : ℤ).toNat + 1) 0 (2 : ℤ) ((1 : ℤ) + 0)).isSome :=
  Tile_loops_terminate (constImg 0 0 2 2 ⟨0, 0, 0, 0⟩)
    (constImg 0 0 1 1 ⟨0, 0, 0, 0⟩) 0 (by norm_num [constImg])
    (by norm_num [constImg])

/-- Blending a stored (in-range) pixel with a fully transparent overlay
pixel and re-storing it gives back the pixel, at any opacity. -/
theorem blend_store_transparent (c : RGBA8) (hv : c.chValid) (ov : RGBA16)
    (h : ov.a = 0) (op : ℚ) :
    (blendColors c.toRGBA16 ov op).toRGBA8 = c := by
  rw [show blendColors c.toRGBA16 ov op = c.toRGBA16 from by
    simp [blendColors, h]]
  exact toRGBA8_toRGBA16 c hv

/-- Blending a stored (in-range) pixel with any overlay pixel at opacity 0
and re-storing it gives back the pixel: the effective alpha is 0, so each
channel evaluates to the stored 8-bit value. -/
theorem blend_store_opacity_zero (c : RGBA8) (hv : c.chValid)
    (ov : RGBA16) : (blendColors c.toRGBA16 ov 0).toRGBA8 = c := by
  by_cases h : ov.a = 0
  · exact blend_store_transparent c hv ov h 0
  · have hch : ∀ b o : ℕ, b < 256 →
        blendChannel (257 * b) o (effAlpha ov.a 0) = b := by
      intro b o hb
      have hea : effAlpha ov.a 0 = 0 := by simp [effAlpha]
      have hdiv : 257 * b / 256 = b := by omega
      unfold blendChannel trunc8
      rw [hea, hdiv]
      norm_num
      exact hb
    have hkey : blendColors c.toRGBA16 ov 0 =
        RGBA8.toRGBA16 ⟨c.r, c.g, c.b, c.a⟩ := by
      obtain ⟨hr, hg, hb2, ha⟩ := hv
      unfold blendColors
      rw [if_neg h]
      congr 1
      simp only [RGBA8.toRGBA16, RGBA8.mk.injEq]
      exact ⟨hch c.r ov.r hr, hch c.g ov.g hg, hch c.b ov.b hb2,
        roundtrip_ch c.a ha⟩
    rw [hkey, show (⟨c.r, c.g, c.b, c.a⟩ : RGBA8) = c from rfl]
    exact toRGBA8_toRGBA16 c hv

/-- C2: `Apply` normalizes its opacity option before rendering — opacity
≤ 0 is replaced by 0.5 and opacity > 1 is clamped to 1 — so `Apply` at
opacity 0 produces exactly the output of `Apply` at opacity 0.5, while
`Tile` applies no normalization and at opacity 0 returns the untouched
base canvas pixel-for-pixel. -/
theorem opacity_normalization :
    (∀ q : ℚ, q ≤ 0 → normOpacity q = 1/2) ∧
    (∀ q : ℚ, 1 < q → normOpacity q = 1) ∧
    (∀ (src wm : Img) (pos : Position) (px py : ℤ),
      Apply src wm ⟨pos, 0, px, py⟩ = Apply src wm ⟨pos, 1/2, px, py⟩) ∧
    (∀ (src wm : Img) (spacing : ℤ), 1 ≤ (wm.w : ℤ) + spacing →
      1 ≤ (wm.h : ℤ) + spacing →
      ∀ X Y : ℤ, (Tile src wm 0 spacing).At X Y = (dstInit src).At X Y) := by
  refine ⟨?_, ?_, ?_, ?_⟩
  · intro q h
    unfold normOpacity
    rw [if_pos h]
    norm_num
  · intro q h
    have h0 : ¬ q ≤ 0 := by linarith
    unfold normOpacity
    rw [if_neg h0, if_pos h]
  · intro src wm pos px py
    unfold Apply applyStep
    norm_num [normOpacity]
  · intro src wm spacing hx hy X Y
    unfold Tile
    refine foldl_At_id _ _ _ ?_ X Y
    intro d2 q hq hinv X2 Y2
    unfold tileStep
    split
    · rfl
    · have hv : (d2.At (q.1 + (q.2.2.1 : ℤ))
          (q.2.1 + (q.2.2.2 : ℤ))).chValid := by
        rw [hinv]
        exact dstInit_At_chValid _ _ _
      rw [blend_store_opacity_zero _ hv _]
      exact At_Set_write_back _ _ _ _ _

/-- Witness for C2 at concrete inputs. -/
theorem opacity_normalization_witness :
    normOpacity (-1) = 1/2 ∧ normOpacity 2 = 1 ∧
    Apply (constImg 0 0 1 1 ⟨65535, 0, 0, 65535⟩)
        (constImg 0 0 1 1 ⟨0, 65535, 0, 65535⟩) ⟨Position.Center, 0, 0, 0⟩ =
      Apply (constImg 0 0 1 1 ⟨65535, 0, 0, 65535⟩)
        (constImg 0 0 1 1 ⟨0, 65535, 0, 65535⟩)
        ⟨Position.Center, 1/2, 0, 0⟩ ∧
    (Tile (constImg 0 0 1 1 ⟨65535, 0, 0, 65535⟩)
        (constImg 0 0 1 1 ⟨0, 65535, 0, 65535⟩) 0 0).At 0 0 =
      (dstInit (constImg 0 0 1 1 ⟨65535, 0, 0, 65535⟩)).At 0 0 :=
  ⟨opacity_normalization.1 (-1) (by norm_num),
   opacity_normalization.2.1 2 (by norm_num),
   opacity_normalization.2.2.1 _ _ Position.Center 0 0,
   opacity_normalization.2.2.2 _ _ 0 (by norm_num [constImg])
     (by norm_num [constImg]) 0 0⟩

/-- C9: applying a fully transparent (all-alpha-zero) overlay via `Apply`
(any position, padding, opacity) or `Tile` (any opacity, any spacing for
which the call returns) leaves every pixel of the output equal to the
copied base canvas. -/
theorem transparent_overlay_id (src wm : Img) (opts : Options)
    (opacity : ℚ) (spacing : ℤ) (hx : 1 ≤ (wm.w : ℤ) + spacing)
    (hy : 1 ≤ (wm.h : ℤ) + spacing)
    (hwm : ∀ x y : ℤ, wm.minX ≤ x → x < wm.minX + wm.w → wm.minY ≤ y →
      y < wm.minY + wm.h → (wm.At x y).a = 0) (X Y : ℤ) :
    (Apply src wm opts).At X Y = (dstInit src).At X Y ∧
    (Tile src wm opacity spacing).At X Y = (dstInit src).At X Y := by
  constructor
  · unfold Apply
    refine foldl_At_id _ _ _ ?_ X Y
    intro d2 p hp hinv X2 Y2
    have hpw := (mem_pairs wm.w wm.h p).mp hp
    unfold applyStep writeStep
    split
    · have halpha : (wm.At (wm.minX + (p.1 : ℤ)) (wm.minY + (p.2 : ℤ))).a
          = 0 := by
        apply hwm <;> omega
      have hv : (d2.At
          ((computeOffset src.w src.h wm.w wm.h opts.position opts.paddingX
            opts.paddingY).1 + (p.1 : ℤ))
          ((computeOffset src.w src.h wm.w wm.h opts.position opts.paddingX
            opts.paddingY).2 + (p.2 : ℤ))).chValid := by
        rw [hinv]
        exact dstInit_At_chValid _ _ _
      beta_reduce
      rw [blend_store_transparent _ hv _ halpha]
      exact At_Set_write_back _ _ _ _ _
    · rfl
  · unfold Tile
    refine foldl_At_id _ _ _ ?_ X Y
    intro d2 q hq hinv X2 Y2
    have hqw := mem_tileQuads src wm spacing q hq
    unfold tileStep
    split
    · rfl
    · have halpha : (wm.At (wm.minX + (q.2.2.1 : ℤ))
          (wm.minY + (q.2.2.2 : ℤ))).a = 0 := by
        have h1 : q.2.2.1 < wm.w := hqw.1
        have h2 : q.2.2.2 < wm.h := hqw.2
        apply hwm <;> omega
      have hv : (d2.At (q.1 + (q.2.2.1 : ℤ))
          (q.2.1 + (q.2.2.2 : ℤ))).chValid := by
        rw [hinv]
        exact dstInit_At_chValid _ _ _
      rw [blend_store_transparent _ hv _ halpha]
      exact At_Set_write_back _ _ _ _ _

/-- Witness for C9: a 1×1 opaque white base with a 1×1 all-transparent
overlay, under both renderers. -/
theorem transparent_overlay_id_witness :
    (Apply (constImg 0 0 1 1 ⟨65535, 65535, 65535, 65535⟩)
        (constImg 0 0 1 1 ⟨0, 0, 0, 0⟩)
        ⟨Position.BottomRight, 1, 0, 0⟩).At 0 0 =
      (dstInit (constImg 0 0 1 1 ⟨65535, 65535, 65535, 65535⟩)).At 0 0 ∧
    (Tile (constImg 0 0 1 1 ⟨65535, 65535, 65535, 65535⟩)
        (constImg 0 0 1 1 ⟨0, 0, 0, 0⟩) (3/4) 0).At 0 0 =
      (dstInit (constImg 0 0 1 1 ⟨65535, 65535, 65535, 65535⟩)).At 0 0 :=
  transparent_overlay_id (constImg 0 0 1 1 ⟨65535, 65535, 65535, 65535⟩)
    (constImg 0 0 1 1 ⟨0, 0, 0, 0⟩) ⟨Position.BottomRight, 1, 0, 0⟩ (3/4) 0
    (by norm_num [constImg]) (by norm_num [constImg])
    (fun _ _ _ _ _ _ => rfl) 0 0

theorem At_out_of_rect (d : RGBAImg) (x y : ℤ) (h : ¬ d.inRect x y) :
    d.At x y = ⟨0, 0, 0, 0⟩ := by
  unfold RGBAImg.At
  rw [if_neg h]

theorem foldl_writeStep_minX (sw sh : ℕ) (ox oy : ℤ) (g) (l : List (ℕ × ℕ))
    (d : RGBAImg) :
    (l.foldl (writeStep sw sh ox oy g) d).minX = d.minX := by
  induction l generalizing d with
  | nil => rfl
  | cons p t ih => rw [List.foldl_cons, ih, writeStep_minX]

theorem foldl_writeStep_minY (sw sh : ℕ) (ox oy : ℤ) (g) (l : List (ℕ × ℕ))
    (d : RGBAImg) :
    (l.foldl (writeStep sw sh ox oy g) d).minY = d.minY := by
  induction l generalizing d with
  | nil => rfl
  | cons p t ih => rw [List.foldl_cons, ih, writeStep_minY]

theorem dstInit_At_origin (src : Img) (h0x : src.minX = 0)
    (h0y : src.minY = 0) (X Y : ℤ)
    (hg : 0 ≤ X ∧ X < (src.w : ℤ) ∧ 0 ≤ Y ∧ Y < (src.h : ℤ)) :
    (dstInit src).At X Y = (src.At X Y).toRGBA8 := by
  unfold dstInit RGBAImg.At
  split
  · rfl
  · rename_i hnin
    exfalso
    apply hnin
    unfold RGBAImg.inRect
    simp only
    omega

theorem dstInit_At_origin_out (src : Img) (h0x : src.minX = 0)
    (h0y : src.minY = 0) (X Y : ℤ)
    (hg : ¬(0 ≤ X ∧ X < (src.w : ℤ) ∧ 0 ≤ Y ∧ Y < (src.h : ℤ))) :
    (dstInit src).At X Y = ⟨0, 0, 0, 0⟩ := by
  unfold dstInit RGBAImg.At
  split
  · rename_i hin
    exfalso
    unfold RGBAImg.inRect at hin
    simp only at hin
    omega
  · rfl

/-- Formalization of C7's wording: every overlay pixel whose destination
`(offset + (wx,wy))` is non-negative and below the base width/height on
both axes is composited — the output at that destination is the blend of
the copied canvas pixel there with the corresponding watermark pixel. -/
def ApplySpecClaim (src wm : Img) (opts : Options) : Prop :=
  ∀ p ∈ pairs wm.w wm.h,
    (0 ≤ (computeOffset src.w src.h wm.w wm.h opts.position opts.paddingX
        opts.paddingY).1 + (p.1 : ℤ) ∧
      (computeOffset src.w src.h wm.w wm.h opts.position opts.paddingX
        opts.paddingY).1 + (p.1 : ℤ) < (src.w : ℤ) ∧
      0 ≤ (computeOffset src.w src.h wm.w wm.h opts.position opts.paddingX
        opts.paddingY).2 + (p.2 : ℤ) ∧
      (computeOffset src.w src.h wm.w wm.h opts.position opts.paddingX
        opts.paddingY).2 + (p.2 : ℤ) < (src.h : ℤ)) →
    (Apply src wm opts).At
        ((computeOffset src.w src.h wm.w wm.h opts.position opts.paddingX
          opts.paddingY).1 + (p.1 : ℤ))
        ((computeOffset src.w src.h wm.w wm.h opts.position opts.paddingX
          opts.paddingY).2 + (p.2 : ℤ)) =
      (blendColors
        ((dstInit src).At
          ((computeOffset src.w src.h wm.w wm.h opts.position opts.paddingX
            opts.paddingY).1 + (p.1 : ℤ))
          ((computeOffset src.w src.h wm.w wm.h opts.position opts.paddingX
            opts.paddingY).2 + (p.2 : ℤ))).toRGBA16
        (wm.At (wm.minX + (p.1 : ℤ)) (wm.minY + (p.2 : ℤ)))
        (normOpacity opts.opacity)).toRGBA8

/-- C7 counterexample: for a 1×1 black base whose bounding rectangle has
origin (1,0) and an opaque white 1×1 overlay at TopLeft with padding 0 and
opacity 1, the overlay pixel's destination (0,0) passes the in-bounds test
(0 ≤ 0 < 1 on both axes) yet is not composited: the write lands outside
the output rectangle and is dropped, so the universally quantified claim is
false. -/
theorem Apply_inbounds_cex :
    ¬ ApplySpecClaim (constImg 1 0 1 1 ⟨0, 0, 0, 65535⟩)
      (constImg 0 0 1 1 ⟨65535, 65535, 65535, 65535⟩)
      ⟨Position.TopLeft, 1, 0, 0⟩ := by
  intro h
  have hg := h (0, 0) (by decide) (by decide)
  have hfx : (Apply (constImg 1 0 1 1 ⟨0, 0, 0, 65535⟩)
      (constImg 0 0 1 1 ⟨65535, 65535, 65535, 65535⟩)
      ⟨Position.TopLeft, 1, 0, 0⟩).minX = 1 := by
    unfold Apply applyStep
    rw [foldl_writeStep_minX]
    rfl
  have hL : (Apply (constImg 1 0 1 1 ⟨0, 0, 0, 65535⟩)
      (constImg 0 0 1 1 ⟨65535, 65535, 65535, 65535⟩)
      ⟨Position.TopLeft, 1, 0, 0⟩).At 0 0 = ⟨0, 0, 0, 0⟩ := by
    refine At_out_of_rect _ _ _ ?_
    intro hin
    unfold RGBAImg.inRect at hin
    rw [hfx] at hin
    omega
  have hcanvas : ((dstInit (constImg 1 0 1 1 ⟨0, 0, 0, 65535⟩)).At 0 0) =
      ⟨0, 0, 0, 0⟩ := by
    refine At_out_of_rect _ _ _ ?_
    intro hin
    unfold dstInit RGBAImg.inRect constImg at hin
    simp only at hin
    omega
  have hR : (blendColors
      ((⟨0, 0, 0, 0⟩ : RGBA8)).toRGBA16
      ((constImg 0 0 1 1 ⟨65535, 65535, 65535, 65535⟩).At 0 0)
      (normOpacity 1)).toRGBA8 = ⟨255, 255, 255, 0⟩ := by
    have hn : normOpacity 1 = 1 := by norm_num [normOpacity]
    have hea : effAlpha 65535 1 = 1 := by
      unfold effAlpha
      norm_num
    have hch : blendChannel 0 65535 1 = 255 := by
      unfold blendChannel trunc8
      norm_num
      decide
    show (blendColors ⟨0, 0, 0, 0⟩ ⟨65535, 65535, 65535, 65535⟩
      (normOpacity 1)).toRGBA8 = ⟨255, 255, 255, 0⟩
    rw [hn]
    show (RGBA8.toRGBA16 ⟨blendChannel 0 65535 (effAlpha 65535 1),
      blendChannel 0 65535 (effAlpha 65535 1),
      blendChannel 0 65535 (effAlpha 65535 1), 0 / 256 % 256⟩).toRGBA8 =
      ⟨255, 255, 255, 0⟩
    rw [hea, hch]
    decide
  have hg2 : (Apply (constImg 1 0 1 1 ⟨0, 0, 0, 65535⟩)
        (constImg 0 0 1 1 ⟨65535, 65535, 65535, 65535⟩)
        ⟨Position.TopLeft, 1, 0, 0⟩).At 0 0 =
      (blendColors
        ((dstInit (constImg 1 0 1 1 ⟨0, 0, 0, 65535⟩)).At 0 0).toRGBA16
        ((constImg 0 0 1 1 ⟨65535, 65535, 65535, 65535⟩).At 0 0)
        (normOpacity 1)).toRGBA8 := hg
  rw [hL, hcanvas, hR] at hg2
  exact absurd hg2 (by decide)

/-- C7 (amended): `Apply` is total (never panics) for all inputs, and for a
base image whose bounding rectangle has origin (0,0) the output is exactly
the base canvas with the in-bounds portion of the overlay composited: an
overlay pixel whose destination is negative or ≥ width/height on either
axis is skipped, every other overlay pixel is composited at its
destination, every non-covered in-bounds pixel is the verbatim base copy,
and everything outside the rectangle reads as the zero color.  (For a
non-(0,0) origin the bounds test no longer matches the output rectangle
and in-bounds destinations can be silently dropped — see the
counterexample and C8.) -/
theorem Apply_characterization (src wm : Img) (opts : Options)
    (offx offy : ℤ)
    (hoff : computeOffset src.w src.h wm.w wm.h opts.position
      opts.paddingX opts.paddingY = (offx, offy))
    (h0x : src.minX = 0) (h0y : src.minY = 0) (X Y : ℤ) :
    (Apply src wm opts).At X Y =
      if 0 ≤ X ∧ X < (src.w : ℤ) ∧ 0 ≤ Y ∧ Y < (src.h : ℤ) then
        if offx ≤ X ∧ X < offx + (wm.w : ℤ) ∧ offy ≤ Y ∧
            Y < offy + (wm.h : ℤ) then
          (blendColors ((src.At X Y).toRGBA8).toRGBA16
            (wm.At (wm.minX + (X - offx)) (wm.minY + (Y - offy)))
            (normOpacity opts.opacity)).toRGBA8
        else (src.At X Y).toRGBA8
      else ⟨0, 0, 0, 0⟩ := by
  have hox : (computeOffset src.w src.h wm.w wm.h opts.position
      opts.paddingX opts.paddingY).1 = offx := by rw [hoff]
  have hoy : (computeOffset src.w src.h wm.w wm.h opts.position
      opts.paddingX opts.paddingY).2 = offy := by rw [hoff]
  unfold Apply applyStep
  rw [hox, hoy]
  by_cases hguard : 0 ≤ X ∧ X < (src.w : ℤ) ∧ 0 ≤ Y ∧ Y < (src.h : ℤ)
  · rw [if_pos hguard]
    by_cases hcov : offx ≤ X ∧ X < offx + (wm.w : ℤ) ∧ offy ≤ Y ∧
        Y < offy + (wm.h : ℤ)
    · rw [if_pos hcov]
      have hp1 : (((X - offx).toNat : ℤ)) = X - offx :=
        Int.toNat_of_nonneg (by omega)
      have hp2 : (((Y - offy).toNat : ℤ)) = Y - offy :=
        Int.toNat_of_nonneg (by omega)
      have hpm : ((X - offx).toNat, (Y - offy).toNat) ∈ pairs wm.w wm.h := by
        rw [mem_pairs]
        constructor <;> omega
      have hhit := foldl_writeStep_hit src.w src.h offx offy
        (fun p c => (blendColors c.toRGBA16
          (wm.At (wm.minX + (p.1 : ℤ)) (wm.minY + (p.2 : ℤ)))
          (normOpacity opts.opacity)).toRGBA8)
        (pairs wm.w wm.h) ((X - offx).toNat, (Y - offy).toNat) X Y
        (by show offx + ((X - offx).toNat : ℤ) = X; omega)
        (by show offy + ((Y - offy).toNat : ℤ) = Y; omega)
        hguard (dstInit src) (nodup_pairs _ _) hpm h0x h0y rfl rfl
      rw [hhit]
      beta_reduce
      rw [dstInit_At_origin src h0x h0y X Y hguard]
      show (blendColors ((src.At X Y).toRGBA8).toRGBA16
        (wm.At (wm.minX + ((X - offx).toNat : ℤ))
          (wm.minY + ((Y - offy).toNat : ℤ)))
        (normOpacity opts.opacity)).toRGBA8 = _
      rw [hp1, hp2]
    · rw [if_neg hcov]
      have hnomem : ∀ p ∈ pairs wm.w wm.h,
          ¬(offx + (p.1 : ℤ) = X ∧ offy + (p.2 : ℤ) = Y) := by
        intro p hp hcon
        have hb := (mem_pairs _ _ p).mp hp
        apply hcov
        refine ⟨?_, ?_, ?_, ?_⟩ <;> omega
      rw [foldl_writeStep_nomem _ _ _ _ _ _ _ _ _ hnomem]
      exact dstInit_At_origin src h0x h0y X Y hguard
  · rw [if_neg hguard, foldl_writeStep_nguard _ _ _ _ _ _ _ _ _ hguard]
    exact dstInit_At_origin_out src h0x h0y X Y hguard

/-- Witness for C7's amended statement: 2×2 origin-(0,0) base, 1×1 overlay
at TopLeft, read at (1,1), where the overlay does not reach — the base
pixel comes through verbatim. -/
theorem Apply_characterization_witness :
    (Apply (constImg 0 0 2 2 ⟨65535, 0, 0, 65535⟩)
        (constImg 0 0 1 1 ⟨0, 0, 0, 65535⟩)
        ⟨Position.TopLeft, 1, 0, 0⟩).At 1 1 =
      ((constImg 0 0 2 2 ⟨65535, 0, 0, 65535⟩).At 1 1).toRGBA8 :=
  Apply_characterization (constImg 0 0 2 2 ⟨65535, 0, 0, 65535⟩)
    (constImg 0 0 1 1 ⟨0, 0, 0, 65535⟩) ⟨Position.TopLeft, 1, 0, 0⟩ 0 0
    (by decide) rfl rfl 1 1

/-- C8 counterexample: a 1×1 opaque white base whose rectangle has origin
(1, 0), with a 1×1 opaque black overlay at TopLeft, padding 0, opacity 1.
The computed offset is (0,0), so in the base's own coordinate space the
overlay should cover the base's single pixel at (1,0), genuinely inside the
image; yet the output still shows the untouched white pixel there (the code
addressed the write at (0,0), outside the output rectangle, and dropped
it), and nowhere the blended black pixel. -/
theorem Apply_origin_cex :
    (Apply (constImg 1 0 1 1 ⟨65535, 65535, 65535, 65535⟩)
        (constImg 0 0 1 1 ⟨0, 0, 0, 65535⟩)
        ⟨Position.TopLeft, 1, 0, 0⟩).At 1 0 = ⟨255, 255, 255, 255⟩ ∧
    (blendColors ((⟨255, 255, 255, 255⟩ : RGBA8)).toRGBA16
        ((constImg 0 0 1 1 ⟨0, 0, 0, 65535⟩).At 0 0)
        (normOpacity 1)).toRGBA8 = ⟨0, 0, 0, 255⟩ ∧
    (⟨255, 255, 255, 255⟩ : RGBA8) ≠ ⟨0, 0, 0, 255⟩ := by
  refine ⟨by decide, ?_, by decide⟩
  have hn : normOpacity 1 = 1 := by norm_num [normOpacity]
  have hea : effAlpha 65535 1 = 1 := by
    unfold effAlpha
    norm_num
  have hch : blendChannel 65535 0 1 = 0 := by
    unfold blendChannel trunc8
    norm_num
  show (blendColors ⟨257 * 255, 257 * 255, 257 * 255, 257 * 255⟩
    ⟨0, 0, 0, 65535⟩ (normOpacity 1)).toRGBA8 = ⟨0, 0, 0, 255⟩
  rw [hn]
  show (RGBA8.toRGBA16 ⟨blendChannel (257 * 255) 0 (effAlpha 65535 1),
    blendChannel (257 * 255) 0 (effAlpha 65535 1),
    blendChannel (257 * 255) 0 (effAlpha 65535 1),
    257 * 255 / 256 % 256⟩).toRGBA8 = ⟨0, 0, 0, 255⟩
  rw [hea]
  rw [show (257 * 255 : ℕ) = 65535 from by norm_num, hch]
  decide

/-- C8 (amended): `Apply` addresses the output with coordinates relative to
(0, 0) — the skip test compares destinations against the base width/height,
not against the actual bounding rectangle — so every output pixel outside
the square region [0, base_w) × [0, base_h) is the untouched base canvas
regardless of the image origin; overlay pixels whose base-coordinate-space
destination lies in the rectangle but outside that square region are
silently dropped, so compositing at the computed offset is only guaranteed
for origin-(0,0) base images. -/
theorem Apply_outside_guard_untouched (src wm : Img) (opts : Options)
    (X Y : ℤ)
    (h : ¬(0 ≤ X ∧ X < (src.w : ℤ) ∧ 0 ≤ Y ∧ Y < (src.h : ℤ))) :
    (Apply src wm opts).At X Y = (dstInit src).At X Y := by
  unfold Apply applyStep
  exact foldl_writeStep_nguard _ _ _ _ _ _ _ X Y h

/-- Witness for C8's amended statement: the base of the counterexample,
whose whole rectangle lies outside [0,1)×[0,1); its pixel at (1,0) is the
untouched copy. -/
theorem Apply_outside_guard_untouched_witness :
    (Apply (constImg 1 0 1 1 ⟨65535, 65535, 65535, 65535⟩)
        (constImg 0 0 1 1 ⟨0, 0, 0, 65535⟩)
        ⟨Position.TopLeft, 1, 0, 0⟩).At 1 0 =
      (dstInit (constImg 1 0 1 1 ⟨65535, 65535, 65535, 65535⟩)).At 1 0 :=
  Apply_outside_guard_untouched
    (constImg 1 0 1 1 ⟨65535, 65535, 65535, 65535⟩)
    (constImg 0 0 1 1 ⟨0, 0, 0, 65535⟩) ⟨Position.TopLeft, 1, 0, 0⟩ 1 0
    (by decide)

theorem tileStep_minX (src wm : Img) (op : ℚ) (d : RGBAImg) (q) :
    (tileStep src wm op d q).minX = d.minX := by
  unfold tileStep RGBAImg.Set
  split <;> rfl

theorem tileStep_minY (src wm : Img) (op : ℚ) (d : RGBAImg) (q) :
    (tileStep src wm op d q).minY = d.minY := by
  unfold tileStep RGBAImg.Set
  split <;> rfl

theorem tileStep_w (src wm : Img) (op : ℚ) (d : RGBAImg) (q) :
    (tileStep src wm op d q).w = d.w := by
  unfold tileStep RGBAImg.Set
  split <;> rfl

theorem tileStep_h (src wm : Img) (op : ℚ) (d : RGBAImg) (q) :
    (tileStep src wm op d q).h = d.h := by
  unfold tileStep RGBAImg.Set
  split <;> rfl

/-- A heap of pixel buffers with an allocation counter, for the
buffer-ownership claims: allocation (`image.NewRGBA`) hands out the fresh
index `next`; a write (`dst.Set`, modelled at whole-buffer granularity per
loop step) targets exactly one buffer. -/
structure Heap where
  bufs : ℕ → ℤ → ℤ → RGBA8
  next : ℕ

/-- Overwrite the buffer at reference `r`. -/
def Heap.write (hp : Heap) (r : ℕ) (b : ℤ → ℤ → RGBA8) : Heap :=
  ⟨fun s => if s = r then b else hp.bufs s, hp.next⟩

/-- Allocate a fresh buffer initialized to `b`; returns its reference. -/
def Heap.alloc (hp : Heap) (b : ℤ → ℤ → RGBA8) : ℕ × Heap :=
  (hp.next, ⟨fun s => if s = hp.next then b else hp.bufs s, hp.next + 1⟩)

/-- Reassemble the output `RGBAImg` (bounds of `src`) around a heap
buffer. -/
def bufImg (src : Img) (f : ℤ → ℤ → RGBA8) : RGBAImg :=
  ⟨src.minX, src.minY, src.w, src.h, f⟩

/-- Run a per-step renderer with every write routed through heap buffer
`r`. -/
def heapFold {α : Type} (st : RGBAImg → α → RGBAImg)
    (mk : (ℤ → ℤ → RGBA8) → RGBAImg) (r : ℕ) (l : List α) (hp : Heap) :
    Heap :=
  l.foldl (fun h a => h.write r ((st (mk (h.bufs r)) a).pix)) hp

/-- Heap-level `Apply`: allocate the output buffer, fill it with the base
copy, then run the placement loop on that buffer. -/
def hApply (hp : Heap) (src wm : Img) (opts : Options) : ℕ × Heap :=
  ((hp.alloc (dstInit src).pix).1,
    heapFold (applyStep src wm opts) (bufImg src)
      (hp.alloc (dstInit src).pix).1 (pairs wm.w wm.h)
      (hp.alloc (dstInit src).pix).2)

/-- Heap-level `Tile`: allocate the output buffer, fill it with the base
copy, then run the tiling loops on that buffer. -/
def hTile (hp : Heap) (src wm : Img) (opacity : ℚ) (spacing : ℤ) :
    ℕ × Heap :=
  ((hp.alloc (dstInit src).pix).1,
    heapFold (tileStep src wm opacity) (bufImg src)
      (hp.alloc (dstInit src).pix).1 (tileQuads src wm spacing)
      (hp.alloc (dstInit src).pix).2)

theorem heapFold_bufs {α : Type} (st : RGBAImg → α → RGBAImg)
    (mk : (ℤ → ℤ → RGBA8) → RGBAImg) (r : ℕ) (l : List α) :
    ∀ (hp : Heap) (d0 : RGBAImg), hp.bufs r = d0.pix → mk d0.pix = d0 →
      (∀ (d : RGBAImg) (a : α), mk d.pix = d → mk (st d a).pix = st d a) →
      (heapFold st mk r l hp).bufs r = (l.foldl st d0).pix ∧
      (∀ s, s ≠ r → (heapFold st mk r l hp).bufs s = hp.bufs s) ∧
      (heapFold st mk r l hp).next = hp.next := by
  induction l with
  | nil => exact fun hp d0 h1 _ _ => ⟨h1, fun _ _ => rfl, rfl⟩
  | cons a t ih =>
    intro hp d0 h1 h2 h3
    have e1 : mk (hp.bufs r) = d0 := by rw [h1]; exact h2
    have key : (hp.write r ((st (mk (hp.bufs r)) a).pix)).bufs r =
        (st d0 a).pix := by
      show (if r = r then (st (mk (hp.bufs r)) a).pix else hp.bufs r) =
        (st d0 a).pix
      rw [if_pos rfl, e1]
    obtain ⟨ha, hb, hc⟩ :=
      ih (hp.write r ((st (mk (hp.bufs r)) a).pix)) (st d0 a) key
        (h3 d0 a h2) h3
    refine ⟨?_, ?_, ?_⟩
    · show (heapFold st mk r t
        (hp.write r ((st (mk (hp.bufs r)) a).pix))).bufs r =
        ((a :: t).foldl st d0).pix
      rw [List.foldl_cons]
      exact ha
    · intro s hs
      show (heapFold st mk r t
        (hp.write r ((st (mk (hp.bufs r)) a).pix))).bufs s = hp.bufs s
      rw [hb s hs]
      unfold Heap.write
      simp only
      rw [if_neg hs]
    · show (heapFold st mk r t
        (hp.write r ((st (mk (hp.bufs r)) a).pix))).next = hp.next
      rw [hc]
      rfl

theorem bufImg_reassemble (src : Img) (x : RGBAImg) (h1 : x.minX = src.minX)
    (h2 : x.minY = src.minY) (h3 : x.w = src.w) (h4 : x.h = src.h) :
    bufImg src x.pix = x := by
  cases x
  unfold bufImg
  simp_all

theorem applyStep_reassemble (src wm : Img) (opts : Options) (d : RGBAImg)
    (a : ℕ × ℕ) (h : bufImg src d.pix = d) :
    bufImg src (applyStep src wm opts d a).pix = applyStep src wm opts d a := by
  have f1 : d.minX = src.minX := (congrArg RGBAImg.minX h).symm
  have f2 : d.minY = src.minY := (congrArg RGBAImg.minY h).symm
  have f3 : d.w = src.w := (congrArg RGBAImg.w h).symm
  have f4 : d.h = src.h := (congrArg RGBAImg.h h).symm
  refine bufImg_reassemble src _ ?_ ?_ ?_ ?_ <;> unfold applyStep
  · rw [writeStep_minX]; exact f1
  · rw [writeStep_minY]; exact f2
  · rw [writeStep_w]; exact f3
  · rw [writeStep_h]; exact f4

theorem tileStep_reassemble (src wm : Img) (opacity : ℚ) (d : RGBAImg)
    (a : ℤ × ℤ × ℕ × ℕ) (h : bufImg src d.pix = d) :
    bufImg src (tileStep src wm opacity d a).pix =
      tileStep src wm opacity d a := by
  have f1 : d.minX = src.minX := (congrArg RGBAImg.minX h).symm
  have f2 : d.minY = src.minY := (congrArg RGBAImg.minY h).symm
  have f3 : d.w = src.w := (congrArg RGBAImg.w h).symm
  have f4 : d.h = src.h := (congrArg RGBAImg.h h).symm
  refine bufImg_reassemble src _ ?_ ?_ ?_ ?_
  · rw [tileStep_minX]; exact f1
  · rw [tileStep_minY]; exact f2
  · rw [tileStep_w]; exact f3
  · rw [tileStep_h]; exact f4

/-- C10: both renderers allocate a fresh output buffer (the allocator's
next reference), start it as a verbatim copy of the base pixels, perform
every write on that buffer only — every previously existing buffer, in
particular any buffer holding the base or overlay pixels, is unchanged —
and return the fresh buffer, whose final contents are exactly the pure
renderer's output. -/
theorem renderers_fresh_buffer (hp : Heap) (src wm : Img) (opts : Options)
    (opacity : ℚ) (spacing : ℤ) (hx : 1 ≤ (wm.w : ℤ) + spacing)
    (hy : 1 ≤ (wm.h : ℤ) + spacing) :
    ((hApply hp src wm opts).1 = hp.next ∧
     (hApply hp src wm opts).2.next = hp.next + 1 ∧
     (∀ s, s ≠ hp.next → (hApply hp src wm opts).2.bufs s = hp.bufs s) ∧
     (∀ x y : ℤ, (dstInit src).pix x y = (src.At x y).toRGBA8) ∧
     (hApply hp src wm opts).2.bufs hp.next = (Apply src wm opts).pix) ∧
    ((hTile hp src wm opacity spacing).1 = hp.next ∧
     (hTile hp src wm opacity spacing).2.next = hp.next + 1 ∧
     (∀ s, s ≠ hp.next →
       (hTile hp src wm opacity spacing).2.bufs s = hp.bufs s) ∧
     (hTile hp src wm opacity spacing).2.bufs hp.next =
       (Tile src wm opacity spacing).pix) := by
  have halloc : ((hp.alloc (dstInit src).pix).2).bufs hp.next =
      (dstInit src).pix := by
    show (if hp.next = hp.next then (dstInit src).pix else hp.bufs hp.next) =
      (dstInit src).pix
    rw [if_pos rfl]
  have hreassemble : bufImg src (dstInit src).pix = dstInit src := rfl
  obtain ⟨a1, a2, a3⟩ := heapFold_bufs (applyStep src wm opts) (bufImg src)
    hp.next (pairs wm.w wm.h) (hp.alloc (dstInit src).pix).2 (dstInit src)
    halloc hreassemble (applyStep_reassemble src wm opts)
  obtain ⟨t1, t2, t3⟩ := heapFold_bufs (tileStep src wm opacity)
    (bufImg src) hp.next (tileQuads src wm spacing)
    (hp.alloc (dstInit src).pix).2 (dstInit src) halloc hreassemble
    (tileStep_reassemble src wm opacity)
  refine ⟨⟨rfl, ?_, ?_, fun _ _ => rfl, a1⟩, rfl, ?_, ?_, t1⟩
  · show (heapFold (applyStep src wm opts) (bufImg src) hp.next
      (pairs wm.w wm.h) (hp.alloc (dstInit src).pix).2).next = hp.next + 1
    rw [a3]
    rfl
  · intro s hs
    show (heapFold (applyStep src wm opts) (bufImg src) hp.next
      (pairs wm.w wm.h) (hp.alloc (dstInit src).pix).2).bufs s = hp.bufs s
    rw [a2 s hs]
    unfold Heap.alloc
    simp only
    rw [if_neg hs]
  · show (heapFold (tileStep src wm opacity) (bufImg src) hp.next
      (tileQuads src wm spacing) (hp.alloc (dstInit src).pix).2).next =
      hp.next + 1
    rw [t3]
    rfl
  · intro s hs
    show (heapFold (tileStep src wm opacity) (bufImg src) hp.next
      (tileQuads src wm spacing) (hp.alloc (dstInit src).pix).2).bufs s =
      hp.bufs s
    rw [t2 s hs]
    unfold Heap.alloc
    simp only
    rw [if_neg hs]

/-- Witness for C10 at a concrete heap and concrete 1×1 images. -/
theorem renderers_fresh_buffer_witness :
    ((hApply ⟨fun _ _ _ => ⟨9, 9, 9, 9⟩, 2⟩ (constImg 0 0 1 1 ⟨9, 9, 9, 9⟩)
        (constImg 0 0 1 1 ⟨0, 0, 0, 0⟩) ⟨Position.Center, 1, 0, 0⟩).1 = 2 ∧
     (hApply ⟨fun _ _ _ => ⟨9, 9, 9, 9⟩, 2⟩ (constImg 0 0 1 1 ⟨9, 9, 9, 9⟩)
        (constImg 0 0 1 1 ⟨0, 0, 0, 0⟩)
        ⟨Position.Center, 1, 0, 0⟩).2.next = 2 + 1 ∧
     (∀ s, s ≠ 2 →
       (hApply ⟨fun _ _ _ => ⟨9, 9, 9, 9⟩, 2⟩ (constImg 0 0 1 1 ⟨9, 9, 9, 9⟩)
        (constImg 0 0 1 1 ⟨0, 0, 0, 0⟩) ⟨Position.Center, 1, 0, 0⟩).2.bufs s =
       (fun _ _ => ⟨9, 9, 9, 9⟩)) ∧
     (∀ x y : ℤ, (dstInit (constImg 0 0 1 1 ⟨9, 9, 9, 9⟩)).pix x y =
       ((constImg 0 0 1 1 ⟨9, 9, 9, 9⟩).At x y).toRGBA8) ∧
     (hApply ⟨fun _ _ _ => ⟨9, 9, 9, 9⟩, 2⟩ (constImg 0 0 1 1 ⟨9, 9, 9, 9⟩)
        (constImg 0 0 1 1 ⟨0, 0, 0, 0⟩) ⟨Position.Center, 1, 0, 0⟩).2.bufs 2 =
       (Apply (constImg 0 0 1 1 ⟨9, 9, 9, 9⟩) (constImg 0 0 1 1 ⟨0, 0, 0, 0⟩)
        ⟨Position.Center, 1, 0, 0⟩).pix) ∧
    ((hTile ⟨fun _ _ _ => ⟨9, 9, 9, 9⟩, 2⟩ (constImg 0 0 1 1 ⟨9, 9, 9, 9⟩)
        (constImg 0 0 1 1 ⟨0, 0, 0, 0⟩) (1/2) 0).1 = 2 ∧
     (hTile ⟨fun _ _ _ => ⟨9, 9, 9, 9⟩, 2⟩ (constImg 0 0 1 1 ⟨9, 9, 9, 9⟩)
        (constImg 0 0 1 1 ⟨0, 0, 0, 0⟩) (1/2) 0).2.next = 2 + 1 ∧
     (∀ s, s ≠ 2 →
       (hTile ⟨fun _ _ _ => ⟨9, 9, 9, 9⟩, 2⟩ (constImg 0 0 1 1 ⟨9, 9, 9, 9⟩)
        (constImg 0 0 1 1 ⟨0, 0, 0, 0⟩) (1/2) 0).2.bufs s =
       (fun _ _ => ⟨9, 9, 9, 9⟩)) ∧
     (hTile ⟨fun _ _ _ => ⟨9, 9, 9, 9⟩, 2⟩ (constImg 0 0 1 1 ⟨9, 9, 9, 9⟩)
        (constImg 0 0 1 1 ⟨0, 0, 0, 0⟩) (1/2) 0).2.bufs 2 =
       (Tile (constImg 0 0 1 1 ⟨9, 9, 9, 9⟩) (constImg 0 0 1 1 ⟨0, 0, 0, 0⟩)
        (1/2) 0).pix) :=
  renderers_fresh_buffer ⟨fun _ _ _ => ⟨9, 9, 9, 9⟩, 2⟩
    (constImg 0 0 1 1 ⟨9, 9, 9, 9⟩) (constImg 0 0 1 1 ⟨0, 0, 0, 0⟩)
    ⟨Position.Center, 1, 0, 0⟩ (1/2) 0 (by norm_num [constImg])
    (by norm_num [constImg])

end Watermark
